import Mathlib

/-!
Verification development for the 1-D block-structured mesh-refinement driver
of `05-hpc.ipynb`: the `problem`, `patch` and `mr_simulation` classes.

A field buffer (`numpy` array of shape `(nv, nx + 2*ngz)`) is embedded as a
`List (List ℚ)`: one list of cells per field variable.  The vectorised
column writes `data[:, j] = ...` of the source act independently on every
field row; they are embedded by `setCol`, which performs the same write on
each row (negative `numpy` column indices are resolved against the row
length, exactly as `numpy` resolves them against the fixed buffer width).
Out-of-range reads use the default `0`; every theorem that depends on a
read keeps the indices inside the buffer, where this agrees with `numpy`.

Patches of a hierarchy are stored in the arena `Hier`; the `parent`
attribute of the source (an object reference) becomes a `(level, index)`
pair into the arena, so that mutation of a parent buffer through its child
(restriction), and reads of an already-updated parent during a child's
ghost fill, are both visible, as they are through Python aliasing.
-/

/-- A 2-D field buffer: one list of cell values per field variable. -/
abbrev Buf := List (List ℚ)

/-- The `problem` class: number of variables, their names, and the
right-hand-side evaluator. -/
structure problem where
  nv : ℕ
  names : List String
  rhs : Buf → ℚ → Buf

/-- The `patch` class.  `parent` is the arena location of the parent patch
(`None` in the source becomes `none`); `parent_i_start` is `None` exactly
when `parent` is.  The boundary-condition string of the constructor is
validated and discarded (the source binds the method `bcs_periodic` for the
single accepted literal and stores no string). -/
structure patch where
  problem : problem
  nx : ℕ
  ngz : ℕ
  x0 : ℚ
  dx : ℚ
  parent : Option (ℕ × ℕ)
  parent_i_start : Option ℕ
  data : Buf

instance : Inhabited patch :=
  ⟨⟨⟨0, [], fun d _ => d⟩, 0, 0, 0, 0, none, none, []⟩⟩

/-- The body of `patch.__init__` after a successful boundary-kind check:
all constructor arguments are stored and `data` is `np.zeros((nv, nx+2*ngz))`. -/
def mk_patch (pr : problem) (nx ngz : ℕ) (x0 dx : ℚ)
    (parent : Option (ℕ × ℕ)) (pis : Option ℕ) : patch :=
  ⟨pr, nx, ngz, x0, dx, parent, pis,
    List.replicate pr.nv (List.replicate (nx + 2 * ngz) 0)⟩

/-- `patch.__init__`: the boundary-kind string is checked against the single
literal `"Periodic"`; any other value raises `NotImplementedError` (embedded
as `none`). -/
def patch_init (pr : problem) (nx ngz : ℕ) (x0 dx : ℚ) (bcs : String)
    (parent : Option (ℕ × ℕ)) (pis : Option ℕ) : Option patch :=
  if bcs = "Periodic" then some (mk_patch pr nx ngz x0 dx parent pis) else none

/-- One vectorised column write `data[:, j] = vals`: every field row `v`
gets `vals v` at the column computed (from the row length, for negative
`numpy` indices) by `colIdx`.  The counter is the row index. -/
def setCol (colIdx : ℕ → ℕ) (vals : ℕ → ℚ) : ℕ → Buf → Buf
  | _, [] => []
  | v, row :: rest => row.set (colIdx row.length) (vals v) :: setCol colIdx vals (v + 1) rest

/-- `patch.bcs_periodic` on one field row:
`data[:, :ngz] = data[:, -2*ngz:-ngz]` followed by
`data[:, -ngz:] = data[:, ngz:2*ngz]`, as sequential slice assignments. -/
def bcs_periodic_row (ngz : ℕ) (row : List ℚ) : List ℚ :=
  let W := row.length
  let r1 := (row.drop (W - 2 * ngz)).take ngz ++ row.drop ngz
  r1.take (W - ngz) ++ (r1.drop ngz).take ngz

/-- `patch.bcs_periodic` (the slice assignments act on each field row
independently). -/
def bcs_periodic_data (ngz : ℕ) (d : Buf) : Buf :=
  d.map (bcs_periodic_row ngz)

/-- `patch.bcs_mr`: for `i` in `range(ngz//2)`, the four vectorised column
writes of the source, with `i_s = parent_i_start` and
`i_e = parent_i_start + ngz//2`, reading the parent buffer `pd`. -/
def bcs_mr_data (ngz i_s : ℕ) (pd : Buf) (d : Buf) : Buf :=
  let i_e := i_s + ngz / 2
  (List.range (ngz / 2)).foldl (fun r i =>
    let prow := fun v => pd.getD v []
    let r1 := setCol (fun _ => 2 * i)
      (fun v => 0.25 * ((prow v).getD (i_s - 2) 0 + 3 * (prow v).getD (i_s - 1) 0)) 0 r
    let r2 := setCol (fun _ => 2 * i + 1)
      (fun v => 0.25 * (3 * (prow v).getD (i_s - 1) 0 + (prow v).getD i_s 0)) 0 r1
    let r3 := setCol (fun W => W - (2 * i + 1))
      (fun v => 0.25 * (3 * (prow v).getD (i_e + 1) 0 + (prow v).getD (i_e + 2) 0)) 0 r2
    let r4 := setCol (fun W => W - (2 * i + 2))
      (fun v => 0.25 * ((prow v).getD i_e 0 + 3 * (prow v).getD (i_e + 1) 0)) 0 r3
    r4) d

/-- The buffer update of `patch.restrict_interior` once a parent is present:
for `i` in `range(nx//2)`,
`parent.data[:, parent_i_start+i] = 0.5*(data[:, 2*i+ngz] + data[:, 2*i+1+ngz])`,
where `cd` is the child's buffer and `pd` the parent's. -/
def restrict_data (nx ngz i_s : ℕ) (cd pd : Buf) : Buf :=
  (List.range (nx / 2)).foldl (fun pr i =>
    setCol (fun _ => i_s + i)
      (fun v => 0.5 * ((cd.getD v []).getD (2 * i + ngz) 0 +
        (cd.getD v []).getD (2 * i + 1 + ngz) 0)) 0 pr) pd

/-- `self.data += dt * deriv`, elementwise on a buffer. -/
def add_scaled (d : Buf) (dt : ℚ) (deriv : Buf) : Buf :=
  List.zipWith (fun row drow => List.zipWith (fun x y => x + dt * y) row drow) d deriv

/-- The patch arena: the `levels` list of the hierarchy driver. -/
abbrev Hier := List (List patch)

/-- Look up the patch at level `i`, position `j`. -/
def hGet (s : Hier) (i j : ℕ) : Option patch := (s.getD i [])[j]?

/-- Replace the patch at level `i`, position `j`. -/
def hSet (s : Hier) (i j : ℕ) (p : patch) : Hier :=
  s.set i ((s.getD i []).set j p)

/-- The buffer of the patch at a parent location (the parent object's `data`
attribute, read through the arena). -/
def parent_data (s : Hier) (loc : ℕ × ℕ) : Buf :=
  ((hGet s loc.1 loc.2).map patch.data).getD []

/-- `patch.euler_step`: `self.data += dt * self.problem.rhs(self.data, self.dx)`,
then the ghost fill — `bcs_periodic` when there is no parent, `bcs_mr`
otherwise.  The arena is needed only to read the parent buffer. -/
def patch.euler_step (s : Hier) (p : patch) (dt : ℚ) : patch :=
  let d1 := add_scaled p.data dt (p.problem.rhs p.data p.dx)
  match p.parent with
  | none => { p with data := bcs_periodic_data p.ngz d1 }
  | some loc => { p with data := bcs_mr_data p.ngz (p.parent_i_start.getD 0) (parent_data s loc) d1 }

/-- Apply `euler_step` to the patch at `(i, j)` of the arena. -/
def euler_step_at (dt : ℚ) (s : Hier) (i j : ℕ) : Hier :=
  match hGet s i j with
  | none => s
  | some p => hSet s i j (patch.euler_step s p dt)

/-- `patch.restrict_interior` for the patch at `(i, j)`: a no-op when
`parent is None`, otherwise the parent buffer is overwritten by
`restrict_data`. -/
def restrict_at (s : Hier) (i j : ℕ) : Hier :=
  match hGet s i j with
  | none => s
  | some p =>
    match p.parent with
    | none => s
    | some loc =>
      match hGet s loc.1 loc.2 with
      | none => s
      | some par =>
        hSet s loc.1 loc.2
          { par with data := restrict_data p.nx p.ngz (p.parent_i_start.getD 0) p.data par.data }

/-- The stepping pass of `mr_simulation.evolve`:
`for level in self.levels: for p in level: p.euler_step(dt)`. -/
def step_pass (dt : ℚ) (s : Hier) : Hier :=
  (List.range s.length).foldl (fun s1 i =>
    (List.range (s1.getD i []).length).foldl (fun s2 j => euler_step_at dt s2 i j) s1) s

/-- The restriction pass of `mr_simulation.evolve`:
`for level in self.levels[::-1]: for p in level: p.restrict_interior()` —
finest level first. -/
def restrict_pass (s : Hier) : Hier :=
  (List.range s.length).reverse.foldl (fun s1 i =>
    (List.range (s1.getD i []).length).foldl (fun s2 j => restrict_at s2 i j) s1) s

/-- One iteration of the `while` loop of `evolve`: step every patch on
every level, then restrict, finest level first. -/
def mr_iter (dt : ℚ) (s : Hier) : Hier := restrict_pass (step_pass dt s)

/-- `self.levels[-1][0].dx`: the spacing of the first patch of the finest
level. -/
def finest_dx (s : Hier) : ℚ :=
  ((s.getD (s.length - 1) []).head?.map patch.dx).getD 0

/-- The `while t < t_end` loop of `evolve` (the loop diverges for a
non-positive `dt`, hence the positivity hypothesis). -/
def evolve_loop (dt t_end : ℚ) (hdt : 0 < dt) (t : ℚ) (s : Hier) : Hier :=
  if _h : t < t_end then evolve_loop dt t_end hdt (t + dt) (mr_iter dt s) else s
termination_by (⌈(t_end - t) / dt⌉).toNat
decreasing_by
  have hne : dt ≠ 0 := ne_of_gt hdt
  have h1 : (t_end - (t + dt)) / dt = (t_end - t) / dt - 1 := by field_simp; ring
  have h2 : (0 : ℤ) < ⌈(t_end - t) / dt⌉ := Int.ceil_pos.mpr (div_pos (by linarith) hdt)
  rw [h1, Int.ceil_sub_one]
  omega

/-- `mr_simulation.evolve(t_end)`: `dt = 0.5 * self.levels[-1][0].dx`,
then the `while` loop from `t = 0`. -/
def mr_evolve (s : Hier) (t_end : ℚ) (h : 0 < finest_dx s) : Hier :=
  evolve_loop (0.5 * finest_dx s) t_end (by nlinarith) 0 s

/-- `mr_simulation.__init__`: a single base patch on level 0, and for each
subsequent level `i` one child patch per refinement centre, with spacing
`base_dx / 2^i`, left edge `xc - 0.5*child_nx*dx`, parent the patch of the
same position on the previous level, and `parent_i_start = child_nx//4 + 1`.
Every `patch(...)` call of the source passes the literal `"Periodic"` and
therefore succeeds (`patch_init` returns `some`, see
`patch_init_periodic`). -/
def mr_init (pr : problem) (base_dx : ℚ) (base_nx nlevels : ℕ)
    (x_centres : List ℚ) (child_nx : ℕ) : Hier :=
  [[mk_patch pr base_nx 1 0 base_dx none none]] ++
    (List.range (nlevels - 1)).map (fun k =>
      (List.range x_centres.length).map (fun j =>
        mk_patch pr child_nx 1
          (x_centres.getD j 0 - 0.5 * (child_nx : ℚ) * (base_dx / 2 ^ (k + 1)))
          (base_dx / 2 ^ (k + 1)) (some (k, j)) (some (child_nx / 4 + 1))))

/-- The constructor accepts the literal `"Periodic"` and stores the data of
`mk_patch`. -/
theorem patch_init_periodic (pr : problem) (nx ngz : ℕ) (x0 dx : ℚ)
    (parent : Option (ℕ × ℕ)) (pis : Option ℕ) :
    patch_init pr nx ngz x0 dx "Periodic" parent pis =
      some (mk_patch pr nx ngz x0 dx parent pis) := by
  simp [patch_init]

/-- A vectorised column write, read back row by row. -/
theorem setCol_getElem? (f : ℕ → ℕ) (vals : ℕ → ℚ) (d : Buf) :
    ∀ (v r : ℕ), (setCol f vals v d)[r]? =
      (d[r]?).map (fun row => row.set (f row.length) (vals (v + r))) := by
  induction d with
  | nil => intro v r; simp [setCol]
  | cons row rest ih =>
    intro v r
    cases r with
    | zero => simp [setCol]
    | succ r =>
      have harith : v + 1 + r = v + (r + 1) := by omega
      simp [setCol, ih (v + 1) r, harith]

/-- A fold of single-cell writes does not change the row length. -/
theorem rowfold_length (q : ℕ → ℕ) (h : ℕ → ℚ) (n : ℕ) (row : List ℚ) :
    ((List.range n).foldl (fun r i => r.set (q i) (h i)) row).length = row.length := by
  induction n with
  | zero => simp
  | succ n ih => rw [List.range_succ, List.foldl_append]; simp [ih]

/-- A fold of single-cell writes leaves every untouched cell unchanged. -/
theorem rowfold_getElem?_frame (q : ℕ → ℕ) (h : ℕ → ℚ) (n : ℕ) (row : List ℚ) (j : ℕ)
    (hj : ∀ i < n, q i ≠ j) :
    ((List.range n).foldl (fun r i => r.set (q i) (h i)) row)[j]? = row[j]? := by
  induction n with
  | zero => simp
  | succ n ih =>
    rw [List.range_succ, List.foldl_append]
    simp only [List.foldl_cons, List.foldl_nil]
    rw [List.getElem?_set_ne (hj n (by omega)), ih (fun i hi => hj i (by omega))]

/-- A fold of single-cell writes at pairwise distinct in-range columns reads
back the written value. -/
theorem rowfold_getElem?_hit (q : ℕ → ℕ) (h : ℕ → ℚ) (n : ℕ) (row : List ℚ) (i : ℕ)
    (hi : i < n) (hlt : q i < row.length)
    (hinj : ∀ i', i < i' → i' < n → q i' ≠ q i) :
    ((List.range n).foldl (fun r i => r.set (q i) (h i)) row)[q i]? = some (h i) := by
  induction n with
  | zero => omega
  | succ n ih =>
    rw [List.range_succ, List.foldl_append]
    simp only [List.foldl_cons, List.foldl_nil]
    rcases Nat.lt_or_ge i n with hin | hin
    · rw [List.getElem?_set_ne (hinj n hin (by omega)),
        ih hin (fun i' h1 h2 => hinj i' h1 (by omega))]
    · have : i = n := by omega
      subst this
      rw [List.getElem?_set_self]
      rw [rowfold_length]
      exact hlt

/-- A fold of vectorised column writes acts on every field row as the same
fold of single-cell writes. -/
theorem buffold_getElem? (q : ℕ → ℕ) (w : ℕ → ℕ → ℚ) (n : ℕ) (pd : Buf) (v : ℕ) :
    ((List.range n).foldl (fun pr i => setCol (fun _ => q i) (w i) 0 pr) pd)[v]? =
      (pd[v]?).map (fun row => (List.range n).foldl (fun r i => r.set (q i) (w i v)) row) := by
  induction n with
  | zero => cases h : pd[v]? <;> simp [h]
  | succ n ih =>
    rw [List.range_succ]
    simp only [List.foldl_append, List.foldl_cons, List.foldl_nil]
    rw [setCol_getElem?, ih]
    cases h : pd[v]? <;> simp [h]

/-- Characterisation of the hierarchy built by `mr_simulation.__init__`:
level 0 holds the single base patch, and level `i ≥ 1` holds one child per
refinement centre with spacing `base_dx / 2^i`, left edge
`xc - 0.5*child_nx*dx`, parent location `(i-1, j)` and
`parent_i_start = child_nx//4 + 1`. -/
theorem mr_init_lookup (pr : problem) (base_dx : ℚ) (base_nx nlevels : ℕ)
    (x_centres : List ℚ) (child_nx : ℕ) (i j : ℕ) (p : patch) :
    hGet (mr_init pr base_dx base_nx nlevels x_centres child_nx) i j = some p ↔
      (i = 0 ∧ j = 0 ∧ p = mk_patch pr base_nx 1 0 base_dx none none) ∨
      (1 ≤ i ∧ i - 1 < nlevels - 1 ∧ j < x_centres.length ∧
        p = mk_patch pr child_nx 1
          (x_centres.getD j 0 - 0.5 * (child_nx : ℚ) * (base_dx / 2 ^ i))
          (base_dx / 2 ^ i) (some (i - 1, j)) (some (child_nx / 4 + 1))) := by
  unfold mr_init hGet
  rw [List.singleton_append]
  cases i with
  | zero =>
    rw [List.getD_cons_zero]
    cases j with
    | zero => simp [eq_comm]
    | succ j => simp
  | succ k =>
    rw [List.getD_cons_succ]
    rcases Nat.lt_or_ge k (nlevels - 1) with hk | hk
    · rw [List.getD_eq_getElem?_getD, List.getElem?_map, List.getElem?_range hk]
      simp only [Option.map_some', Option.getD_some]
      rcases Nat.lt_or_ge j x_centres.length with hj | hj
      · rw [List.getElem?_map, List.getElem?_range hj]
        simp only [Option.map_some', Option.some.injEq]
        constructor
        · intro h
          exact Or.inr ⟨by omega, by omega, hj, h.symm⟩
        · rintro (⟨h0, _⟩ | ⟨_, _, _, hp⟩)
          · omega
          · simp [hp]
      · have hnone : (List.range x_centres.length)[j]? = none :=
          List.getElem?_eq_none (by simpa using hj)
        rw [List.getElem?_map, hnone, Option.map_none']
        constructor
        · intro h; simp at h
        · rintro (⟨h0, _⟩ | ⟨_, _, hj2, _⟩)
          · omega
          · omega
    · have hnone : (List.range (nlevels - 1))[k]? = none :=
        List.getElem?_eq_none (by simpa using hk)
      rw [List.getD_eq_getElem?_getD, List.getElem?_map, hnone, Option.map_none',
        Option.getD_none]
      constructor
      · intro h; simp at h
      · rintro (⟨h0, _⟩ | ⟨_, hk2, _, _⟩)
        · omega
        · omega

/-- Elementwise `row + dt * drow` leaves a cell unchanged wherever the
derivative row holds `0` (and also beyond the end of `row`, where both
sides default). -/
theorem zipWith_add_scaled_getD (row drow : List ℚ) (dt : ℚ) (j : ℕ)
    (hj : j < drow.length) (hz : drow.getD j 0 = 0) :
    (List.zipWith (fun x y => x + dt * y) row drow).getD j 0 = row.getD j 0 := by
  rcases hr : row[j]? with _ | x
  · have hlen : row.length ≤ j := by simpa using hr
    have hzlen : (List.zipWith (fun x y => x + dt * y) row drow).length ≤ j := by
      rw [List.length_zipWith]; omega
    rw [List.getD_eq_getElem?_getD, List.getD_eq_getElem?_getD, hr,
      List.getElem?_eq_none hzlen]
  · have hd : drow[j]? = some (drow.getD j 0) := by
      rw [List.getD_eq_getElem?_getD, List.getElem?_eq_getElem hj]; rfl
    rw [List.getD_eq_getElem?_getD, List.getD_eq_getElem?_getD,
      List.getElem?_zipWith', hr, hd, hz]
    simp

/-- `add_scaled` leaves a cell unchanged wherever the derivative buffer
holds `0` there. -/
theorem add_scaled_getD_zero (d dv : Buf) (dt : ℚ) (v j : ℕ)
    (hvd : v < dv.length) (hjd : j < (dv.getD v []).length)
    (hz : (dv.getD v []).getD j 0 = 0) :
    ((add_scaled d dt dv).getD v []).getD j 0 = (d.getD v []).getD j 0 := by
  rcases hv : d[v]? with _ | row
  · have hnone : (add_scaled d dt dv)[v]? = none := by
      unfold add_scaled
      rw [List.getElem?_zipWith', hv]
      rfl
    rw [List.getD_eq_getElem?_getD d, List.getD_eq_getElem?_getD (add_scaled d dt dv),
      hv, hnone]
  · have hdv : dv[v]? = some (dv.getD v []) := by
      rw [List.getD_eq_getElem?_getD, List.getElem?_eq_getElem hvd]; rfl
    have hrow : (add_scaled d dt dv)[v]? =
        some (List.zipWith (fun x y => x + dt * y) row (dv.getD v [])) := by
      unfold add_scaled
      rw [List.getElem?_zipWith', hv, hdv]
      rfl
    rw [List.getD_eq_getElem?_getD d, List.getD_eq_getElem?_getD (add_scaled d dt dv),
      hv, hrow]
    simpa using zipWith_add_scaled_getD row (dv.getD v []) dt j hjd hz

/-- A concrete one-variable problem whose right-hand side is identically
zero (it satisfies the interface contract of the spec: same shape as its
input, zero in cells without full neighbour context). -/
def exProblem : problem :=
  ⟨1, ["q"], fun d _ => d.map (fun row => row.map (fun _ => 0))⟩

/-- A concrete parentless patch. -/
def exBase : patch := mk_patch exProblem 4 1 0 1 none none

/-- A concrete one-patch hierarchy. -/
def exHier : Hier := [[exBase]]

/-- C5: constructing a patch with any boundary-kind value other than the
literal `"Periodic"` is rejected at construction time (the constructor
raises, i.e. returns `none`), and for the accepted literal construction
succeeds.  A successfully constructed patch carries no boundary-kind data
at all (the source binds the method `bcs_periodic` and discards the
string), so no later operation can fail because of it: `patch.euler_step`
and `restrict_at` are total on constructed patches. -/
theorem patch_init_accepts_only_periodic (pr : problem) (nx ngz : ℕ) (x0 dx : ℚ)
    (bcs : String) (parent : Option (ℕ × ℕ)) (pis : Option ℕ) :
    (patch_init pr nx ngz x0 dx bcs parent pis).isSome = (bcs == "Periodic") := by
  by_cases h : bcs = "Periodic" <;> simp [patch_init, h]

/-- C4: calling `restrict_interior` on a patch whose `parent` is `None`
returns immediately and leaves the whole hierarchy — every patch's data
buffer — unchanged. -/
theorem restrict_no_parent_noop (s : Hier) (i j : ℕ) (p : patch)
    (hp : hGet s i j = some p) (hpar : p.parent = none) :
    restrict_at s i j = s := by
  simp [restrict_at, hp, hpar]

/-- Witness for C4, at a concrete one-patch hierarchy. -/
theorem restrict_no_parent_noop_witness :
    hGet exHier 0 0 = some exBase ∧ exBase.parent = none ∧
      restrict_at exHier 0 0 = exHier :=
  ⟨rfl, rfl, restrict_no_parent_noop exHier 0 0 exBase rfl rfl⟩

/-- C1 (evaluation of the code at the failing input): a child with
`ngz = 2`, `nx = 8`, `parent_i_start = 2`, parent row
`[2,4,5,6,7,8,9,10,11,12]`.  At the left edge the fill matches the claim:
the outermost ghost cell becomes `0.25·2 + 0.75·4 = 3.5` and the next one
`0.75·4 + 0.25·5`, interpolated from the parent cells around the child's
left edge.  But the outermost right ghost cell receives
`0.25·(3·p₄ + p₅) = 29/4`, read from the parent cells at
`i_e = parent_i_start + ngz//2 = 3` — cells adjacent to the child's LEFT
edge — whereas the parent cells straddling the child's right edge sit at
`parent_i_start + nx//2 = 6`, and interpolation from them gives
`0.25·(3·p₆ + p₇) = 37/4 ≠ 29/4`.  (`restrict_interior` uses `nx//2` for
the same offset; `bcs_mr` using `ngz//2` is the slip.) -/
theorem bcs_mr_right_edge_misindexed :
    ((bcs_mr_data 2 2 [[2,4,5,6,7,8,9,10,11,12]] [List.replicate 12 0]).getD 0 []).getD 0 0
        = 3.5 ∧
    ((bcs_mr_data 2 2 [[2,4,5,6,7,8,9,10,11,12]] [List.replicate 12 0]).getD 0 []).getD 1 0
        = 0.75 * 4 + 0.25 * 5 ∧
    ((bcs_mr_data 2 2 [[2,4,5,6,7,8,9,10,11,12]] [List.replicate 12 0]).getD 0 []).getD 11 0
        = 0.25 * (3 * 7 + 8) ∧
    (0.25 * (3 * 7 + 8) : ℚ) ≠ 0.25 * (3 * 9 + 10) := by
  refine ⟨?_, ?_, ?_, by norm_num⟩ <;>
    norm_num [bcs_mr_data, setCol, List.range_succ]

/-- C6: with a single ghost cell per side — which is what every patch of
`mr_simulation` has — the refinement fill loop runs `ngz // 2 = 0` times,
so `bcs_mr` returns the buffer entirely unchanged; consequently, after
`euler_step` on such a child patch a ghost cell whose derivative entry is
zero (as the right-hand-side contract guarantees for cells without full
neighbour context) retains its pre-step value. -/
theorem bcs_mr_ghost_one_identity :
    (∀ (i_s : ℕ) (pd d : Buf), bcs_mr_data 1 i_s pd d = d) ∧
    (∀ (pr : problem) (base_dx : ℚ) (base_nx nlevels : ℕ) (x_centres : List ℚ)
      (child_nx i j : ℕ) (p : patch),
      hGet (mr_init pr base_dx base_nx nlevels x_centres child_nx) i j = some p →
      p.ngz = 1) ∧
    (∀ (s : Hier) (p : patch) (dt : ℚ) (loc : ℕ × ℕ) (v j : ℕ),
      p.parent = some loc → p.ngz = 1 →
      v < (p.problem.rhs p.data p.dx).length →
      j < ((p.problem.rhs p.data p.dx).getD v []).length →
      ((p.problem.rhs p.data p.dx).getD v []).getD j 0 = 0 →
      ((patch.euler_step s p dt).data.getD v []).getD j 0 = (p.data.getD v []).getD j 0) := by
  refine ⟨fun _ _ _ => rfl, ?_, ?_⟩
  · intro pr base_dx base_nx nlevels x_centres child_nx i j p hp
    rcases (mr_init_lookup pr base_dx base_nx nlevels x_centres child_nx i j p).mp hp with
      ⟨_, _, rfl⟩ | ⟨_, _, _, rfl⟩ <;> rfl
  · intro s p dt loc v j hpar hngz hv hj hz
    have hstep : (patch.euler_step s p dt).data =
        add_scaled p.data dt (p.problem.rhs p.data p.dx) := by
      simp only [patch.euler_step, hpar, hngz]
      rfl
    rw [hstep]
    exact add_scaled_getD_zero p.data (p.problem.rhs p.data p.dx) dt v j hv hj hz

/-- A concrete child patch with one ghost cell per side, parented at the
base patch of `exHier`. -/
def exChild : patch := mk_patch exProblem 2 1 0 1 (some (0, 0)) (some 2)

/-- Witness for C6: a concrete identity fill, a concrete patch of the
driver-built hierarchy, and a concrete ghost cell kept by `euler_step`. -/
theorem bcs_mr_ghost_one_identity_witness :
    bcs_mr_data 1 5 [[1, 2]] [[3, 4]] = [[3, 4]] ∧
    (mk_patch exProblem 4 1 0 1 none none).ngz = 1 ∧
    ((patch.euler_step exHier exChild 1).data.getD 0 []).getD 0 0 =
      (exChild.data.getD 0 []).getD 0 0 :=
  ⟨bcs_mr_ghost_one_identity.1 5 [[1, 2]] [[3, 4]],
   bcs_mr_ghost_one_identity.2.1 exProblem 1 4 2 [2] 4 0 0
     (mk_patch exProblem 4 1 0 1 none none) rfl,
   bcs_mr_ghost_one_identity.2.2 exHier exChild 1 (0, 0) 0 0 rfl rfl
     (by decide) (by decide) rfl⟩

/-- C10: the boundary-kind string is consulted only at construction time
(where `"Periodic"` is accepted and the constructed patch stores no
boundary-kind data); inside `euler_step` the choice between the physical
and the refinement fill depends solely on whether `parent` is absent, and
every child patch built by `mr_simulation` — though constructed with the
string `"Periodic"` — has a parent, so after its step it applies the
refinement fill, never the periodic rule. -/
theorem euler_step_dispatch_by_parent :
    (∀ (pr : problem) (nx ngz : ℕ) (x0 dx : ℚ) (parent : Option (ℕ × ℕ))
      (pis : Option ℕ),
      patch_init pr nx ngz x0 dx "Periodic" parent pis =
        some (mk_patch pr nx ngz x0 dx parent pis)) ∧
    (∀ (s : Hier) (p : patch) (dt : ℚ), p.parent = none →
      patch.euler_step s p dt =
        { p with data :=
            bcs_periodic_data p.ngz (add_scaled p.data dt (p.problem.rhs p.data p.dx)) }) ∧
    (∀ (s : Hier) (p : patch) (dt : ℚ) (loc : ℕ × ℕ), p.parent = some loc →
      patch.euler_step s p dt =
        { p with data := (bcs_mr_data p.ngz (p.parent_i_start.getD 0) (parent_data s loc)
            (add_scaled p.data dt (p.problem.rhs p.data p.dx))) }) ∧
    (∀ (pr : problem) (base_dx : ℚ) (base_nx nlevels : ℕ) (x_centres : List ℚ)
      (child_nx i j : ℕ) (p : patch), 1 ≤ i →
      hGet (mr_init pr base_dx base_nx nlevels x_centres child_nx) i j = some p →
      p.parent = some (i - 1, j)) := by
  refine ⟨fun pr nx ngz x0 dx parent pis => patch_init_periodic pr nx ngz x0 dx parent pis,
    ?_, ?_, ?_⟩
  · intro s p dt hpar
    simp only [patch.euler_step, hpar]
  · intro s p dt loc hpar
    simp only [patch.euler_step, hpar]
  · intro pr base_dx base_nx nlevels x_centres child_nx i j p hi hp
    rcases (mr_init_lookup pr base_dx base_nx nlevels x_centres child_nx i j p).mp hp with
      ⟨h0, _, _⟩ | ⟨_, _, _, rfl⟩
    · omega
    · rfl

/-- Witness for C10: the concrete parentless patch steps with the periodic
fill, the concrete child patch steps with the refinement fill, and the
level-1 patch of a concrete driver-built hierarchy has parent `(0, 0)`. -/
theorem euler_step_dispatch_by_parent_witness :
    patch_init exProblem 4 1 0 1 "Periodic" none none = some exBase ∧
    patch.euler_step exHier exBase 1 =
      { exBase with data := (bcs_periodic_data exBase.ngz
          (add_scaled exBase.data 1 (exBase.problem.rhs exBase.data exBase.dx))) } ∧
    patch.euler_step exHier exChild 1 =
      { exChild with data := (bcs_mr_data exChild.ngz 2 (parent_data exHier (0, 0))
          (add_scaled exChild.data 1 (exChild.problem.rhs exChild.data exChild.dx))) } ∧
    exChild.parent = some (0, 0) :=
  ⟨euler_step_dispatch_by_parent.1 exProblem 4 1 0 1 none none,
   euler_step_dispatch_by_parent.2.1 exHier exBase 1 rfl,
   euler_step_dispatch_by_parent.2.2.1 exHier exChild 1 (0, 0) rfl,
   rfl⟩

/-- Pointwise description of one periodic fill on a row of length
`nx + 2*ngz` with `ngz ≤ nx`: the leading `ngz` ghost slots receive the
last `ngz` interior cells, the trailing `ngz` ghost slots receive the first
`ngz` interior cells, and the interior is untouched. -/
theorem bcs_periodic_row_getD (nx ngz : ℕ) (row : List ℚ)
    (hw : row.length = nx + 2 * ngz) (hn : ngz ≤ nx) (j : ℕ) :
    (bcs_periodic_row ngz row).getD j 0 =
      if j < ngz then row.getD (nx + j) 0
      else if j < nx + ngz then row.getD j 0
      else if j < nx + 2 * ngz then row.getD (j - nx) 0
      else 0 := by
  have h2 : 2 * ngz ≤ row.length := by omega
  simp only [bcs_periodic_row, List.getD_eq_getElem?_getD, List.getElem?_append,
    List.getElem?_take, List.getElem?_drop, List.length_append, List.length_take,
    List.length_drop, hw]
  split_ifs <;> try omega
  all_goals try rfl
  all_goals (congr 2; omega)

/-- C8: on a parentless patch's buffer (each field row of length
`nx + 2*ngz`, with `ngz ≤ nx` interior cells available), the periodic fill
copies the last `ngz` interior cells into the leading ghost slots
(`row[nx + j]` for slot `j < ngz`), the first `ngz` interior cells into the
trailing ghost slots (`row[j - nx]` for slot `j ≥ nx + ngz`), and leaves
every interior cell unchanged — the wrap-around identification of the
domain ends. -/
theorem bcs_periodic_copies_wraparound (nx ngz : ℕ) (d : Buf) (v j : ℕ)
    (hw : (d.getD v []).length = nx + 2 * ngz) (hn : ngz ≤ nx) :
    ((bcs_periodic_data ngz d).getD v []).getD j 0 =
      if j < ngz then (d.getD v []).getD (nx + j) 0
      else if j < nx + ngz then (d.getD v []).getD j 0
      else if j < nx + 2 * ngz then (d.getD v []).getD (j - nx) 0
      else 0 := by
  rcases hv : d[v]? with _ | row
  · have hd0 : d.getD v [] = [] := by rw [List.getD_eq_getElem?_getD, hv]; rfl
    have hm : (bcs_periodic_data ngz d)[v]? = none := by
      simp [bcs_periodic_data, hv]
    rw [List.getD_eq_getElem?_getD (bcs_periodic_data ngz d), hm, hd0]
    simp only [Option.getD_none]
    split_ifs <;> rfl
  · have hd : d.getD v [] = row := by rw [List.getD_eq_getElem?_getD, hv]; rfl
    have hm : (bcs_periodic_data ngz d).getD v [] = bcs_periodic_row ngz row := by
      rw [List.getD_eq_getElem?_getD]
      simp [bcs_periodic_data, hv]
    rw [hm, hd]
    rw [hd] at hw
    exact bcs_periodic_row_getD nx ngz row hw hn j

/-- Witness for C8: on the concrete buffer `[[1,2,3,4]]` (`nx = 2`,
`ngz = 1`), the leading ghost slot receives the last interior cell. -/
theorem bcs_periodic_copies_wraparound_witness :
    (([[(1 : ℚ), 2, 3, 4]] : Buf).getD 0 []).length = 2 + 2 * 1 ∧
    ((bcs_periodic_data 1 [[1, 2, 3, 4]]).getD 0 []).getD 0 0 =
      (([[(1 : ℚ), 2, 3, 4]] : Buf).getD 0 []).getD (2 + 0) 0 :=
  ⟨rfl, by simpa using bcs_periodic_copies_wraparound 2 1 [[1, 2, 3, 4]] 0 0 rfl (by norm_num)⟩

/-- C3: for a patch with a parent, `restrict_interior` writes, for each pair
index `i < nx//2`, the arithmetic mean of the child's adjacent interior
cells `2i + ngz` and `2i+1 + ngz` into the single parent buffer cell
`parent_i_start + i`, and writes nothing else: every other parent cell (on
every field row) keeps its previous value. -/
theorem restrict_interior_pairs_mean (nx ngz i_s : ℕ) (cd pd : Buf) (v : ℕ) :
    (∀ i, i < nx / 2 → i_s + i < (pd.getD v []).length →
      ((restrict_data nx ngz i_s cd pd).getD v []).getD (i_s + i) 0 =
        0.5 * ((cd.getD v []).getD (2 * i + ngz) 0 +
          (cd.getD v []).getD (2 * i + 1 + ngz) 0)) ∧
    (∀ j, (∀ i, i < nx / 2 → j ≠ i_s + i) →
      ((restrict_data nx ngz i_s cd pd).getD v []).getD j 0 =
        (pd.getD v []).getD j 0) := by
  have hbuf : (restrict_data nx ngz i_s cd pd)[v]? =
      (pd[v]?).map (fun row => (List.range (nx / 2)).foldl
        (fun r i => r.set (i_s + i)
          (0.5 * ((cd.getD v []).getD (2 * i + ngz) 0 +
            (cd.getD v []).getD (2 * i + 1 + ngz) 0))) row) :=
    buffold_getElem? (fun i => i_s + i)
      (fun i w => 0.5 * ((cd.getD w []).getD (2 * i + ngz) 0 +
        (cd.getD w []).getD (2 * i + 1 + ngz) 0)) (nx / 2) pd v
  rcases hv : pd[v]? with _ | row
  · rw [hv] at hbuf
    have hd0 : pd.getD v [] = [] := by rw [List.getD_eq_getElem?_getD, hv]; rfl
    have hr0 : (restrict_data nx ngz i_s cd pd).getD v [] = [] := by
      rw [List.getD_eq_getElem?_getD, hbuf]; rfl
    constructor
    · intro i _ hlt
      rw [hd0] at hlt
      simp at hlt
    · intro j _
      rw [hd0, hr0]
  · rw [hv] at hbuf
    have hd : pd.getD v [] = row := by rw [List.getD_eq_getElem?_getD, hv]; rfl
    have hr : (restrict_data nx ngz i_s cd pd).getD v [] =
        (List.range (nx / 2)).foldl
          (fun r i => r.set (i_s + i)
            (0.5 * ((cd.getD v []).getD (2 * i + ngz) 0 +
              (cd.getD v []).getD (2 * i + 1 + ngz) 0))) row := by
      rw [List.getD_eq_getElem?_getD, hbuf]; rfl
    constructor
    · intro i hi hlt
      rw [hd] at hlt
      rw [hr, List.getD_eq_getElem?_getD]
      rw [rowfold_getElem?_hit (fun i => i_s + i) _ (nx / 2) row i hi hlt
        (fun i' h1 h2 => by show i_s + i' ≠ i_s + i; omega)]
      rfl
    · intro j hj
      rw [hr, hd, List.getD_eq_getElem?_getD, List.getD_eq_getElem?_getD]
      rw [rowfold_getElem?_frame (fun i => i_s + i) _ (nx / 2) row j
        (fun i hi => (hj i hi).symm)]
      simp [List.getD_eq_getElem?_getD]

/-- Witness for C3: `nx = 2`, `ngz = 1`, `parent_i_start = 1`, child buffer
`[[0,5,7,0]]`, parent buffer `[[9,9,9]]`: parent cell 1 becomes
`0.5·(5 + 7)` and parent cell 0 keeps its value. -/
theorem restrict_interior_pairs_mean_witness :
    ((restrict_data 2 1 1 [[0, 5, 7, 0]] [[9, 9, 9]]).getD 0 []).getD (1 + 0) 0 =
      0.5 * ((([[(0 : ℚ), 5, 7, 0]] : Buf).getD 0 []).getD (2 * 0 + 1) 0 +
        (([[(0 : ℚ), 5, 7, 0]] : Buf).getD 0 []).getD (2 * 0 + 1 + 1) 0) ∧
    ((restrict_data 2 1 1 [[0, 5, 7, 0]] [[9, 9, 9]]).getD 0 []).getD 0 0 =
      (([[(9 : ℚ), 9, 9]] : Buf).getD 0 []).getD 0 0 :=
  ⟨(restrict_interior_pairs_mean 2 1 1 [[0, 5, 7, 0]] [[9, 9, 9]] 0).1 0 (by norm_num)
      (by simp),
   (restrict_interior_pairs_mean 2 1 1 [[0, 5, 7, 0]] [[9, 9, 9]] 0).2 0
      (fun i _ => by omega)⟩

/-- The `while` loop of `evolve` unrolls to an iterate of its body: starting
at time `t` it performs exactly `⌈(t_end - t)/dt⌉` iterations (none when
`t_end ≤ t`), each one `mr_iter dt`. -/
theorem evolve_loop_eq_iterate (dt t_end : ℚ) (hdt : 0 < dt) :
    ∀ (n : ℕ) (t : ℚ) (s : Hier), (⌈(t_end - t) / dt⌉).toNat = n →
      evolve_loop dt t_end hdt t s = (mr_iter dt)^[n] s := by
  intro n
  induction n with
  | zero =>
    intro t s hn
    have h0 : ⌈(t_end - t) / dt⌉ ≤ 0 := by omega
    have h1 : (t_end - t) / dt ≤ 0 := by exact_mod_cast Int.ceil_le.mp h0
    have h2 : t_end - t = ((t_end - t) / dt) * dt :=
      (div_mul_cancel₀ _ (ne_of_gt hdt)).symm
    have hle : ¬ t < t_end := by nlinarith
    rw [evolve_loop]
    simp [hle]
  | succ n ih =>
    intro t s hn
    have hceil : ⌈(t_end - t) / dt⌉ = (n : ℤ) + 1 := by omega
    have hpos : (0 : ℚ) < (t_end - t) / dt := Int.ceil_pos.mp (by omega)
    have h2 : t_end - t = ((t_end - t) / dt) * dt :=
      (div_mul_cancel₀ _ (ne_of_gt hdt)).symm
    have ht : t < t_end := by nlinarith
    have hnext : (⌈(t_end - (t + dt)) / dt⌉).toNat = n := by
      have h1 : (t_end - (t + dt)) / dt = (t_end - t) / dt - 1 := by
        field_simp
        ring
      rw [h1, Int.ceil_sub_one]
      omega
    rw [evolve_loop, dif_pos ht, ih (t + dt) (mr_iter dt s) hnext]
    exact (Function.iterate_succ_apply (mr_iter dt) n s).symm

/-- C2: `evolve` uses the single global time step
`dt = 0.5 · levels[-1][0].dx` (one half of the finest level's spacing),
passes the same `dt` to every patch on every level, and consists of
`⌈t_end/dt⌉` identical iterations, each of which first applies the
explicit Euler step to every patch on every level (`step_pass`) and only
afterwards performs the restriction pass, which visits the finest level
first and then each coarser level in turn (`restrict_pass` folds over the
levels in reversed order). -/
theorem evolve_global_dt_step_then_restrict (s : Hier) (t_end : ℚ)
    (h : 0 < finest_dx s) :
    mr_evolve s t_end h =
      (fun s' => restrict_pass (step_pass (0.5 * finest_dx s) s'))^[
        (⌈t_end / (0.5 * finest_dx s)⌉).toNat] s := by
  have hdt : (0 : ℚ) < 0.5 * finest_dx s := by nlinarith
  have := evolve_loop_eq_iterate (0.5 * finest_dx s) t_end hdt
    ((⌈(t_end - 0) / (0.5 * finest_dx s)⌉).toNat) 0 s rfl
  simpa [mr_evolve, mr_iter] using this

/-- Witness for C2, on a concrete one-patch hierarchy with unit spacing. -/
theorem evolve_global_dt_step_then_restrict_witness :
    0 < finest_dx exHier ∧
    mr_evolve exHier 1 (by decide) =
      (fun s' => restrict_pass (step_pass (0.5 * finest_dx exHier) s'))^[
        (⌈(1 : ℚ) / (0.5 * finest_dx exHier)⌉).toNat] exHier :=
  ⟨by decide, evolve_global_dt_step_then_restrict exHier 1 (by decide)⟩

/-- The hierarchy of the C7 counterexample: one refinement centre at `0`. -/
def exMrHier : Hier := mr_init exProblem 1 4 2 [0] 4

/-- Its level-1 child patch. -/
def exMrChild : patch := (exMrHier.getD 1 []).getD 0 default

/-- Its base patch. -/
def exMrBase : patch := (exMrHier.getD 0 []).getD 0 default

/-- Counterexample to C7 as stated: in the driver-built hierarchy with
`base_dx = 1`, `base_nx = 4`, `nlevels = 2`, refinement centre `0` and
`child_nx = 4`, the child's spacing is halved and its parent is on the
immediately coarser level, but its left edge is `-1` while
`parent.x0 + (parent_offset - parent.ngz) * parent.dx = 1`: the alignment
equation fails for an arbitrary refinement-centre list. -/
theorem mr_child_alignment_cex :
    exMrChild.parent = some (0, 0) ∧
    exMrChild.dx = exMrBase.dx / 2 ∧
    exMrChild.x0 ≠ exMrBase.x0 +
      ((exMrChild.parent_i_start.getD 0 : ℚ) - (exMrBase.ngz : ℚ)) * exMrBase.dx := by
  refine ⟨rfl, ?_, ?_⟩
  · norm_num [exMrChild, exMrBase, exMrHier, mr_init, mk_patch, exProblem]
  · norm_num [exMrChild, exMrBase, exMrHier, mr_init, mk_patch, exProblem]

/-- C7 (amended): in every driver-built hierarchy whose `child_nx` is
divisible by 4 and whose refinement centres all equal
`base_dx · child_nx / 2`, every child patch (level `i ≥ 1`) has its parent
at position `(i-1, j)` of the immediately coarser level, spacing
`parent.dx / 2`, and left edge
`parent.x0 + (parent_offset - parent.ngz) · parent.dx`.  (The claim as
frozen asserts this for arbitrary centres; `mr_child_alignment_cex`
refutes that, and the divisibility/centre conditions above are exactly
what the counterexample forces.) -/
theorem mr_child_alignment (pr : problem) (base_dx : ℚ) (base_nx nlevels : ℕ)
    (x_centres : List ℚ) (child_nx : ℕ)
    (h4 : child_nx % 4 = 0)
    (hc : ∀ xc ∈ x_centres, xc = base_dx * child_nx / 2)
    (i j : ℕ) (child par : patch) (hi : 1 ≤ i)
    (hchild : hGet (mr_init pr base_dx base_nx nlevels x_centres child_nx) i j = some child)
    (hpar : hGet (mr_init pr base_dx base_nx nlevels x_centres child_nx) (i - 1) j = some par) :
    child.parent = some (i - 1, j) ∧
    child.dx = par.dx / 2 ∧
    child.x0 = par.x0 +
      ((child.parent_i_start.getD 0 : ℚ) - (par.ngz : ℚ)) * par.dx := by
  have hdvd : (4 : ℕ) ∣ child_nx := Nat.dvd_of_mod_eq_zero h4
  have hcast : ((child_nx / 4 : ℕ) : ℚ) = (child_nx : ℚ) / 4 :=
    Nat.cast_div hdvd (by norm_num)
  rcases (mr_init_lookup pr base_dx base_nx nlevels x_centres child_nx i j child).mp hchild with
    ⟨h0, _, _⟩ | ⟨_, _, hj, rfl⟩
  · omega
  · have hmem : x_centres.getD j 0 ∈ x_centres := by
      rw [List.getD_eq_getElem?_getD, List.getElem?_eq_getElem hj]
      exact List.getElem_mem hj
    have hxc : x_centres.getD j 0 = base_dx * child_nx / 2 := hc _ hmem
    rcases (mr_init_lookup pr base_dx base_nx nlevels x_centres child_nx (i - 1) j par).mp hpar with
      ⟨hi0, _, rfl⟩ | ⟨hi1, _, _, rfl⟩
    · have hieq : i = 1 := by omega
      subst hieq
      refine ⟨rfl, ?_, ?_⟩
      · simp only [mk_patch]
        norm_num
      · simp only [mk_patch, Option.getD_some]
        rw [hxc]
        push_cast [hcast]
        ring
    · have hpow : (2 : ℚ) ^ i = 2 ^ (i - 1) * 2 := by
        rw [← pow_succ]
        congr 1
        omega
      refine ⟨rfl, ?_, ?_⟩
      · simp only [mk_patch]
        rw [hpow]
        ring
      · simp only [mk_patch, Option.getD_some]
        push_cast [hcast]
        rw [hpow]
        ring

/-- Witness for the amended C7: centre `2 = 1·4/2`, `child_nx = 4`; the
child's left edge `1` equals `0 + (2 - 1)·1`. -/
theorem mr_child_alignment_witness :
    (((mr_init exProblem 1 4 2 [2] 4).getD 1 []).getD 0 default).parent = some (0, 0) ∧
    (((mr_init exProblem 1 4 2 [2] 4).getD 1 []).getD 0 default).dx =
      (((mr_init exProblem 1 4 2 [2] 4).getD 0 []).getD 0 default).dx / 2 ∧
    (((mr_init exProblem 1 4 2 [2] 4).getD 1 []).getD 0 default).x0 =
      (((mr_init exProblem 1 4 2 [2] 4).getD 0 []).getD 0 default).x0 +
        (((((mr_init exProblem 1 4 2 [2] 4).getD 1 []).getD 0 default).parent_i_start.getD 0 : ℚ) -
          ((((mr_init exProblem 1 4 2 [2] 4).getD 0 []).getD 0 default).ngz : ℚ)) *
          (((mr_init exProblem 1 4 2 [2] 4).getD 0 []).getD 0 default).dx :=
  mr_child_alignment exProblem 1 4 2 [2] 4 rfl
    (fun xc hxc => by
      rw [List.mem_singleton] at hxc
      rw [hxc]
      norm_num)
    1 0 _ _ (by norm_num) rfl rfl

/-- A buffer has shape `(nv, W)`: `nv` field rows, each of `W` cells. -/
def BufShape (nv W : ℕ) (d : Buf) : Prop :=
  d.length = nv ∧ ∀ v < d.length, (d.getD v []).length = W

/-- A patch's buffer has the shape fixed at its construction:
`(problem.nv, nx + 2*ngz)`. -/
def patchShape (p : patch) : Prop :=
  BufShape p.problem.nv (p.nx + 2 * p.ngz) p.data

/-- Every patch of the hierarchy has its constructed shape. -/
def hierShape (s : Hier) : Prop :=
  ∀ i j p, hGet s i j = some p → patchShape p

/-- The right-hand-side contract of the spec, shape part: the derivative
buffer has exactly the shape of the state buffer. -/
def RhsOK (P : problem) : Prop :=
  ∀ d dx, (P.rhs d dx).length = d.length ∧
    ∀ v, ((P.rhs d dx).getD v []).length = (d.getD v []).length

/-- Every patch of the hierarchy carries a right-hand side obeying the
shape contract. -/
def hierRhsOK (s : Hier) : Prop :=
  ∀ i j p, hGet s i j = some p → RhsOK p.problem

/-- A fold preserves any invariant its body preserves. -/
theorem foldl_preserves {α β : Type} (P : α → Prop) (f : α → β → α) :
    ∀ (l : List β) (s : α), (∀ a b, P a → P (f a b)) → P s → P (l.foldl f s) := by
  intro l
  induction l with
  | nil => intro s _ hs; exact hs
  | cons b rest ih => intro s hf hs; exact ih (f s b) hf (hf s b hs)

/-- `setCol` does not change the number of rows. -/
theorem setCol_length (f : ℕ → ℕ) (vals : ℕ → ℚ) :
    ∀ (v : ℕ) (d : Buf), (setCol f vals v d).length = d.length := by
  intro v d
  induction d generalizing v with
  | nil => rfl
  | cons row rest ih => simp [setCol, ih]

/-- `setCol` preserves the buffer shape. -/
theorem BufShape_setCol (nv W : ℕ) (f : ℕ → ℕ) (vals : ℕ → ℚ) (v : ℕ) (d : Buf)
    (h : BufShape nv W d) : BufShape nv W (setCol f vals v d) := by
  constructor
  · rw [setCol_length]; exact h.1
  · intro r hr
    rw [setCol_length] at hr
    rw [List.getD_eq_getElem?_getD, setCol_getElem? f vals d v r,
      List.getElem?_eq_getElem hr]
    have := h.2 r hr
    rw [List.getD_eq_getElem?_getD, List.getElem?_eq_getElem hr] at this
    simpa using this

/-- The periodic fill preserves a row's length as soon as the row holds at
least its two ghost zones. -/
theorem bcs_periodic_row_length (ngz : ℕ) (row : List ℚ) (h2 : 2 * ngz ≤ row.length) :
    (bcs_periodic_row ngz row).length = row.length := by
  simp only [bcs_periodic_row, List.length_append, List.length_take, List.length_drop]
  omega

/-- The periodic fill preserves the buffer shape (`W = nx + 2*ngz ≥ 2*ngz`
always holds on a patch buffer). -/
theorem BufShape_bcs_periodic (nv W ngz : ℕ) (d : Buf) (h : BufShape nv W d)
    (h2 : 2 * ngz ≤ W) : BufShape nv W (bcs_periodic_data ngz d) := by
  constructor
  · rw [bcs_periodic_data, List.length_map]; exact h.1
  · intro v hv
    rw [bcs_periodic_data, List.length_map] at hv
    have hrow := h.2 v hv
    have hd : d[v]? = some (d.getD v []) := by
      rw [List.getD_eq_getElem?_getD, List.getElem?_eq_getElem hv]; rfl
    have hm : (bcs_periodic_data ngz d)[v]? = some (bcs_periodic_row ngz (d.getD v [])) := by
      rw [bcs_periodic_data, List.getElem?_map, hd]; rfl
    rw [List.getD_eq_getElem?_getD, hm, Option.getD_some, bcs_periodic_row_length]
    · exact hrow
    · rw [hrow]; omega

/-- The refinement fill preserves the child buffer's shape, for any parent
buffer. -/
theorem BufShape_bcs_mr (nv W ngz i_s : ℕ) (pd d : Buf) (h : BufShape nv W d) :
    BufShape nv W (bcs_mr_data ngz i_s pd d) := by
  unfold bcs_mr_data
  refine foldl_preserves (BufShape nv W) _ (List.range (ngz / 2)) d ?_ h
  intro a b ha
  exact BufShape_setCol nv W _ _ 0 _ (BufShape_setCol nv W _ _ 0 _
    (BufShape_setCol nv W _ _ 0 _ (BufShape_setCol nv W _ _ 0 _ ha)))

/-- Restriction preserves the parent buffer's shape, for any child buffer. -/
theorem BufShape_restrict (nv W nx ngz i_s : ℕ) (cd pd : Buf) (h : BufShape nv W pd) :
    BufShape nv W (restrict_data nx ngz i_s cd pd) := by
  unfold restrict_data
  refine foldl_preserves (BufShape nv W) _ (List.range (nx / 2)) pd ?_ h
  intro a b ha
  exact BufShape_setCol nv W _ _ 0 _ ha

/-- The Euler update preserves the buffer shape when the derivative buffer
has the same shape as the state. -/
theorem BufShape_add_scaled (nv W : ℕ) (d dv : Buf) (dt : ℚ) (h : BufShape nv W d)
    (hlen : dv.length = d.length)
    (hrows : ∀ v, (dv.getD v []).length = (d.getD v []).length) :
    BufShape nv W (add_scaled d dt dv) := by
  constructor
  · rw [add_scaled, List.length_zipWith, hlen, Nat.min_self]; exact h.1
  · intro v hv
    rw [add_scaled, List.length_zipWith, hlen, Nat.min_self] at hv
    have hd : d[v]? = some (d.getD v []) := by
      rw [List.getD_eq_getElem?_getD, List.getElem?_eq_getElem hv]; rfl
    have hdv : dv[v]? = some (dv.getD v []) := by
      rw [List.getD_eq_getElem?_getD, List.getElem?_eq_getElem (by omega : v < dv.length)]
      rfl
    rw [List.getD_eq_getElem?_getD, add_scaled, List.getElem?_zipWith', hd, hdv]
    simp only [Option.map_some', Option.some_bind, Option.bind_some, Option.getD_some]
    rw [List.length_zipWith, hrows v, Nat.min_self]
    exact h.2 v hv

/-- A lookup in an updated arena yields either the inserted patch or the
result of the same lookup in the old arena. -/
theorem hGet_hSet (s : Hier) (i j : ℕ) (q : patch) (i2 j2 : ℕ) (p : patch)
    (h : hGet (hSet s i j q) i2 j2 = some p) :
    p = q ∨ hGet s i2 j2 = some p := by
  unfold hGet hSet at h
  unfold hGet
  by_cases hi : i = i2
  · subst hi
    by_cases hl : i < s.length
    · have hlev : (s.set i ((s.getD i []).set j q)).getD i [] = (s.getD i []).set j q := by
        rw [List.getD_eq_getElem?_getD, List.getElem?_set_self hl]; rfl
      rw [hlev] at h
      rw [List.getElem?_set] at h
      by_cases hj : j = j2
      · rw [if_pos hj] at h
        by_cases hjl : j < (s.getD i []).length
        · rw [if_pos hjl] at h
          exact Or.inl (Option.some.inj h).symm
        · rw [if_neg hjl] at h
          simp at h
      · rw [if_neg hj] at h
        exact Or.inr h
    · rw [List.set_eq_of_length_le (by omega)] at h
      exact Or.inr h
  · have hlev : (s.set i ((s.getD i []).set j q)).getD i2 [] = s.getD i2 [] := by
      rw [List.getD_eq_getElem?_getD, List.getElem?_set_ne hi, List.getD_eq_getElem?_getD]
    rw [hlev] at h
    exact Or.inr h

/-- The Euler step never changes the fields fixed at construction. -/
theorem euler_step_fields (s : Hier) (p : patch) (dt : ℚ) :
    (patch.euler_step s p dt).problem = p.problem ∧
    (patch.euler_step s p dt).nx = p.nx ∧ (patch.euler_step s p dt).ngz = p.ngz := by
  unfold patch.euler_step
  cases p.parent <;> exact ⟨rfl, rfl, rfl⟩

/-- The Euler step (update plus ghost fill) preserves a patch's shape when
its right-hand side obeys the shape contract. -/
theorem patchShape_euler_step (s : Hier) (p : patch) (dt : ℚ)
    (hp : patchShape p) (hr : RhsOK p.problem) :
    patchShape (patch.euler_step s p dt) := by
  have hshape : BufShape p.problem.nv (p.nx + 2 * p.ngz)
      (add_scaled p.data dt (p.problem.rhs p.data p.dx)) :=
    BufShape_add_scaled _ _ _ _ dt hp (hr p.data p.dx).1 (hr p.data p.dx).2
  rcases hpar : p.parent with _ | loc
  · rw [show patch.euler_step s p dt = { p with data := (bcs_periodic_data p.ngz
        (add_scaled p.data dt (p.problem.rhs p.data p.dx))) } from by
      simp only [patch.euler_step, hpar]]
    show BufShape p.problem.nv (p.nx + 2 * p.ngz)
      (bcs_periodic_data p.ngz (add_scaled p.data dt (p.problem.rhs p.data p.dx)))
    exact BufShape_bcs_periodic _ _ _ _ hshape (by omega)
  · rw [show patch.euler_step s p dt = { p with data := (bcs_mr_data p.ngz
        (p.parent_i_start.getD 0) (parent_data s loc)
        (add_scaled p.data dt (p.problem.rhs p.data p.dx))) } from by
      simp only [patch.euler_step, hpar]]
    show BufShape p.problem.nv (p.nx + 2 * p.ngz)
      (bcs_mr_data p.ngz (p.parent_i_start.getD 0) (parent_data s loc)
        (add_scaled p.data dt (p.problem.rhs p.data p.dx)))
    exact BufShape_bcs_mr _ _ _ _ _ _ hshape

/-- Stepping one patch of the arena preserves the shape and contract
invariants of the whole hierarchy. -/
theorem euler_step_at_preserves (dt : ℚ) (s : Hier) (i j : ℕ)
    (h : hierShape s ∧ hierRhsOK s) :
    hierShape (euler_step_at dt s i j) ∧ hierRhsOK (euler_step_at dt s i j) := by
  rcases hp : hGet s i j with _ | p
  · simpa [euler_step_at, hp] using h
  · simp only [euler_step_at, hp]
    constructor
    · intro i2 j2 p2 h2
      rcases hGet_hSet s i j _ i2 j2 p2 h2 with rfl | hold
      · exact patchShape_euler_step s p dt (h.1 i j p hp) (h.2 i j p hp)
      · exact h.1 i2 j2 p2 hold
    · intro i2 j2 p2 h2
      rcases hGet_hSet s i j _ i2 j2 p2 h2 with rfl | hold
      · rw [(euler_step_fields s p dt).1]
        exact h.2 i j p hp
      · exact h.2 i2 j2 p2 hold

/-- Restricting one patch of the arena preserves the shape and contract
invariants of the whole hierarchy. -/
theorem restrict_at_preserves (s : Hier) (i j : ℕ)
    (h : hierShape s ∧ hierRhsOK s) :
    hierShape (restrict_at s i j) ∧ hierRhsOK (restrict_at s i j) := by
  rcases hp : hGet s i j with _ | p
  · simpa [restrict_at, hp] using h
  · rcases hpar : p.parent with _ | loc
    · simpa [restrict_at, hp, hpar] using h
    · rcases hq : hGet s loc.1 loc.2 with _ | par
      · simpa [restrict_at, hp, hpar, hq] using h
      · simp only [restrict_at, hp, hpar, hq]
        constructor
        · intro i2 j2 p2 h2
          rcases hGet_hSet s loc.1 loc.2 _ i2 j2 p2 h2 with rfl | hold
          · exact BufShape_restrict _ _ _ _ _ _ _ (h.1 loc.1 loc.2 par hq)
          · exact h.1 i2 j2 p2 hold
        · intro i2 j2 p2 h2
          rcases hGet_hSet s loc.1 loc.2 _ i2 j2 p2 h2 with rfl | hold
          · exact h.2 loc.1 loc.2 par hq
          · exact h.2 i2 j2 p2 hold

/-- The whole stepping pass preserves both invariants. -/
theorem step_pass_preserves (dt : ℚ) (s : Hier) (h : hierShape s ∧ hierRhsOK s) :
    hierShape (step_pass dt s) ∧ hierRhsOK (step_pass dt s) := by
  unfold step_pass
  refine foldl_preserves (fun s2 => hierShape s2 ∧ hierRhsOK s2) _ _ s ?_ h
  intro a b ha
  refine foldl_preserves (fun s2 => hierShape s2 ∧ hierRhsOK s2) _ _ a ?_ ha
  intro a2 b2 ha2
  exact euler_step_at_preserves dt a2 b b2 ha2

/-- The whole restriction pass preserves both invariants. -/
theorem restrict_pass_preserves (s : Hier) (h : hierShape s ∧ hierRhsOK s) :
    hierShape (restrict_pass s) ∧ hierRhsOK (restrict_pass s) := by
  unfold restrict_pass
  refine foldl_preserves (fun s2 => hierShape s2 ∧ hierRhsOK s2) _ _ s ?_ h
  intro a b ha
  refine foldl_preserves (fun s2 => hierShape s2 ∧ hierRhsOK s2) _ _ a ?_ ha
  intro a2 b2 ha2
  exact restrict_at_preserves a2 b b2 ha2

/-- A constructed patch's buffer is `np.zeros((nv, nx + 2*ngz))`. -/
theorem patchShape_mk (pr : problem) (nx ngz : ℕ) (x0 dx : ℚ)
    (parent : Option (ℕ × ℕ)) (pis : Option ℕ) :
    patchShape (mk_patch pr nx ngz x0 dx parent pis) := by
  constructor
  · simp [mk_patch]
  · intro v hv
    simp only [mk_patch, List.length_replicate] at hv
    simp [mk_patch, List.getD_eq_getElem?_getD, List.getElem?_replicate_of_lt hv]

/-- The zero right-hand side of `exProblem` obeys the shape contract. -/
theorem exProblem_rhsOK : RhsOK exProblem := by
  intro d dx
  constructor
  · simp [exProblem]
  · intro v
    rw [List.getD_eq_getElem?_getD, List.getD_eq_getElem?_getD]
    simp only [exProblem, List.getElem?_map]
    cases h : d[v]? <;> simp [h]

/-- In a one-patch arena every successful lookup yields that patch. -/
theorem hGet_singleton (q : patch) (i j : ℕ) (p : patch)
    (h : hGet [[q]] i j = some p) : p = q := by
  unfold hGet at h
  rcases i with _ | i
  · rcases j with _ | j
    · simpa [eq_comm] using h
    · simp at h
  · rcases i with _ | i <;> simp [List.getD] at h

/-- The concrete one-patch hierarchy satisfies the shape invariant. -/
theorem hierShape_exHier : hierShape exHier := by
  intro i j p h
  rw [hGet_singleton exBase i j p h]
  exact patchShape_mk exProblem 4 1 0 1 none none

/-- The concrete one-patch hierarchy satisfies the contract invariant. -/
theorem hierRhsOK_exHier : hierRhsOK exHier := by
  intro i j p h
  rw [hGet_singleton exBase i j p h]
  exact exProblem_rhsOK

/-- C9: at construction a patch's data buffer is `np.zeros` of shape
`(field_count, interior_count + 2·ghost_count)`, and every operation
preserves buffer shapes: the periodic fill and the refinement fill return
a buffer of the input's shape, restriction returns a parent buffer of the
parent's shape, the explicit Euler step keeps the stepped patch's shape
(given the right-hand-side shape contract of the spec), and one full
iteration of `evolve` — the step pass followed by the restriction pass —
keeps the shape of every patch in the hierarchy. -/
theorem shapes_fixed_and_preserved :
    (∀ (pr : problem) (nx ngz : ℕ) (x0 dx : ℚ) (bcs : String)
      (parent : Option (ℕ × ℕ)) (pis : Option ℕ) (p : patch),
      patch_init pr nx ngz x0 dx bcs parent pis = some p →
      patchShape p ∧ p.data = List.replicate pr.nv (List.replicate (nx + 2 * ngz) 0)) ∧
    (∀ (nv W ngz : ℕ) (d : Buf), BufShape nv W d → 2 * ngz ≤ W →
      BufShape nv W (bcs_periodic_data ngz d)) ∧
    (∀ (nv W ngz i_s : ℕ) (pd d : Buf), BufShape nv W d →
      BufShape nv W (bcs_mr_data ngz i_s pd d)) ∧
    (∀ (nv W nx ngz i_s : ℕ) (cd pd : Buf), BufShape nv W pd →
      BufShape nv W (restrict_data nx ngz i_s cd pd)) ∧
    (∀ (s : Hier) (p : patch) (dt : ℚ), patchShape p → RhsOK p.problem →
      patchShape (patch.euler_step s p dt)) ∧
    (∀ (dt : ℚ) (s : Hier), hierShape s → hierRhsOK s → hierShape (mr_iter dt s)) := by
  refine ⟨?_, ?_, ?_, ?_, ?_, ?_⟩
  · intro pr nx ngz x0 dx bcs parent pis p h
    unfold patch_init at h
    split at h
    · cases h
      exact ⟨patchShape_mk pr nx ngz x0 dx parent pis, rfl⟩
    · cases h
  · intro nv W ngz d h h2
    exact BufShape_bcs_periodic nv W ngz d h h2
  · intro nv W ngz i_s pd d h
    exact BufShape_bcs_mr nv W ngz i_s pd d h
  · intro nv W nx ngz i_s cd pd h
    exact BufShape_restrict nv W nx ngz i_s cd pd h
  · intro s p dt hp hr
    exact patchShape_euler_step s p dt hp hr
  · intro dt s h1 h2
    exact (restrict_pass_preserves _ (step_pass_preserves dt s ⟨h1, h2⟩)).1

/-- Witness for C9: concrete instances of each part, on the concrete
problem, patches and one-patch hierarchy. -/
theorem shapes_fixed_and_preserved_witness :
    (patchShape exBase ∧ exBase.data = List.replicate 1 (List.replicate (4 + 2 * 1) 0)) ∧
    BufShape 1 4 (bcs_periodic_data 1 [[1, 2, 3, 4]]) ∧
    BufShape 1 4 (bcs_mr_data 2 0 [[9, 9]] [[1, 2, 3, 4]]) ∧
    BufShape 1 3 (restrict_data 2 1 1 [[0, 5, 7, 0]] [[9, 9, 9]]) ∧
    patchShape (patch.euler_step exHier exChild 1) ∧
    hierShape (mr_iter 1 exHier) :=
  ⟨shapes_fixed_and_preserved.1 exProblem 4 1 0 1 "Periodic" none none exBase rfl,
   shapes_fixed_and_preserved.2.1 1 4 1 [[1, 2, 3, 4]] ⟨by decide, by decide⟩ (by decide),
   shapes_fixed_and_preserved.2.2.1 1 4 2 0 [[9, 9]] [[1, 2, 3, 4]] ⟨by decide, by decide⟩,
   shapes_fixed_and_preserved.2.2.2.1 1 3 2 1 1 [[0, 5, 7, 0]] [[9, 9, 9]] ⟨by decide, by decide⟩,
   shapes_fixed_and_preserved.2.2.2.2.1 exHier exChild 1 ⟨by decide, by decide⟩ exProblem_rhsOK,
   shapes_fixed_and_preserved.2.2.2.2.2 1 exHier hierShape_exHier hierRhsOK_exHier⟩
